import Mathlib

/-!
Verification of the tri-state checkbox tree and the asynchronous directory
scanner of `codebaser.py`.

The development has three parts, each a shallow embedding of a slice of the
source:

1. The checkbox tree (`CheckboxTreeview`): a tkinter `Treeview` whose items
   carry a check tag (`checked` / `unchecked` / `mixed`).  The live widget is
   a forest of items holding parent and child links; we model it as a forest
   of rose trees (`TreeN`), which represents exactly the reachable shapes of
   the widget, and translate `toggle_check`, `_propagate_check_state` and
   `_update_parent_check_state` into structurally recursive functions.

2. The scanner emission (`_build_tree_structure`): the sorted, pre-order
   sequence of `add_item` messages produced for a filesystem snapshot.  The
   item ids come from Python's `str(hash(path))`; since the process hash is
   seed dependent, the hash is a parameter `h` of the embedding.

3. The thread interleaving between `select_folder` / `cancel_loading` /
   `load_tree_async` (main thread), `_load_tree_thread` (worker) and
   `process_queue` (dispatcher tick): a small-step system over explicit
   schedules, with ghost scan identifiers on messages and store nodes.

String details: Python's `name.startswith('.')` is modelled by inspecting the
first character, and `name.lower()` by per-character lowercasing; metadata
(size, mtime) and progress messages are omitted because no claim mentions
them.
-/

/-! ### Part 1: the checkbox tree -/

/-- The three checkbox tags used by `CheckboxTreeview` (`checked`,
`unchecked`, `mixed`).  Every tree item carries exactly one of them. -/
inductive CheckState where
  | checked
  | unchecked
  | mixed
deriving DecidableEq, Repr

/-- One `Treeview` item: its `iid`, its check tag, and its ordered children.
The widget stores items in a flat id-addressed table with parent/child
links; a forest (`List TreeN`) of these nodes is the same data. -/
inductive TreeN where
  | mk (iid : Nat) (st : CheckState) (children : List TreeN)
deriving Repr

def TreeN.iid : TreeN → Nat
  | .mk i _ _ => i

def TreeN.st : TreeN → CheckState
  | .mk _ s _ => s

def TreeN.kids : TreeN → List TreeN
  | .mk _ _ c => c

/-- `_update_parent_check_state` (lines 121-136): `checked` if every child has
the `checked` tag, `unchecked` if every child has the `unchecked` tag, and
`mixed` otherwise.  (The function is only ever applied to a nonempty list of
child states; the code returns early when a node has no children.) -/
def deriveState (sts : List CheckState) : CheckState :=
  if sts.all (· == .checked) then .checked
  else if sts.all (· == .unchecked) then .unchecked
  else .mixed

mutual

/-- `_propagate_check_state(item, checked)` (lines 108-119), together with the
`self.item(item, tags=...)` write that `toggle_check` performs on `item` just
before calling it: the node's tag is set to `v`, and each child in order is
set to `v` and recursed into.  Each child's recursive call ends by running
`_update_parent_check_state` on this node, which re-derives this node's tag
from the current child tags; `propLoop` reproduces that interleaving.  The
final `_update_parent_check_state(parent(item))` call acts one level above
the subtree and is modelled at the call site (`toggleT`). -/
def propagateSet (v : CheckState) : TreeN → TreeN
  | .mk i _ cs =>
    let r := propLoop v v [] cs
    .mk i r.1 r.2

/-- The `for child in children` loop of `_propagate_check_state`: `done` holds
the already-updated children, the list argument the pending ones, and `s` the
current tag of the parent node (re-derived after every child, exactly as the
child's trailing `_update_parent_check_state(parent)` call does). -/
def propLoop (v s : CheckState) (done : List TreeN) :
    List TreeN → CheckState × List TreeN
  | [] => (s, done)
  | c :: rest =>
    let c2 := propagateSet v c
    let s2 := deriveState ((done ++ c2 :: rest).map TreeN.st)
    propLoop v s2 (done ++ [c2]) rest

end

mutual

/-- Locates the toggled item inside one tree and applies the effects of
`toggle_check` below and at one level above it: the item itself gets the
tag write plus `_propagate_check_state` (= `propagateSet`), and a node whose
direct child is the item gets the single trailing
`_update_parent_check_state(parent)` call.  No node higher up is touched —
the source has no upward recursion. -/
def toggleT (x : Nat) (v : CheckState) : TreeN → TreeN
  | .mk i s cs =>
    if i == x then propagateSet v (.mk i s cs)
    else
      if cs.any (fun c => c.iid == x) then
        let cs2 := toggleF x v cs
        .mk i (deriveState (cs2.map TreeN.st)) cs2
      else .mk i s (toggleF x v cs)

def toggleF (x : Nat) (v : CheckState) : List TreeN → List TreeN
  | [] => []
  | t :: ts => toggleT x v t :: toggleF x v ts

end

mutual

/-- The `self.item(item, "tags")` read at the top of `toggle_check`: the check
tag of the item with id `x`, or `none` when no such item exists (tkinter
raises `TclError` before anything is modified). -/
def getStateT (x : Nat) : TreeN → Option CheckState
  | .mk i s cs => if i == x then some s else getStateF x cs

def getStateF (x : Nat) : List TreeN → Option CheckState
  | [] => none
  | t :: ts =>
    match getStateT x t with
    | some s => some s
    | none => getStateF x ts

end

/-- The branch of `toggle_check` (lines 98-106): an item whose tags contain
`checked` becomes `unchecked`; any other item (`unchecked` or `mixed`)
becomes `checked`. -/
def flipSt (s : CheckState) : CheckState :=
  if s == .checked then .unchecked else .checked

/-- `toggle_check(item)` on the whole store: read the item's tags (error if
the id is unknown — the store is then left untouched, since the failing read
is the first statement), flip, write, propagate down, and update the
immediate parent. -/
def toggleCheck (x : Nat) (f : List TreeN) : Option (List TreeN) :=
  match getStateF x f with
  | none => none
  | some s => some (toggleF x (flipSt s) f)

mutual

def containsT (x : Nat) : TreeN → Bool
  | .mk i _ cs => i == x || containsF x cs

def containsF (x : Nat) : List TreeN → Bool
  | [] => false
  | t :: ts => containsT x t || containsF x ts

end

mutual

/-- All nodes of a tree (the node itself and all descendants), pre-order. -/
def subnodesT : TreeN → List TreeN
  | .mk i s cs => .mk i s cs :: subnodesF cs

def subnodesF : List TreeN → List TreeN
  | [] => []
  | t :: ts => subnodesT t ++ subnodesF ts

end

mutual

/-- Every node of the tree (root and descendants) carries tag `v`. -/
def allStT (v : CheckState) : TreeN → Bool
  | .mk _ s cs => s == v && allStF v cs

def allStF (v : CheckState) : List TreeN → Bool
  | [] => true
  | t :: ts => allStT v t && allStF v ts

end

mutual

/-- The derived-state invariant of the specification: every node that has
children carries exactly the tag `deriveState` computes from its children. -/
def consistentT : TreeN → Bool
  | .mk _ s cs =>
    (cs.isEmpty || (s == deriveState (cs.map TreeN.st))) && consistentF cs

def consistentF : List TreeN → Bool
  | [] => true
  | t :: ts => consistentT t && consistentF ts

end

mutual

/-- The pre-order list of `(iid, check tag)` pairs of a tree. -/
def pairsT : TreeN → List (Nat × CheckState)
  | .mk i s cs => (i, s) :: pairsF cs

def pairsF : List TreeN → List (Nat × CheckState)
  | [] => []
  | t :: ts => pairsT t ++ pairsF ts

end

mutual

/-- `tree.insert(parent_id, "end", iid=..., tags=("unchecked", ...))` inside
the first `p`-node found: the new node is appended at the end of the parent's
children with the `unchecked` tag, exactly as the `add_item` branch of
`process_queue` does.  `none` when the parent id does not occur (tkinter
raises and nothing is modified). -/
def insertT (p nid : Nat) : TreeN → Option TreeN
  | .mk i s cs =>
    if i == p then some (.mk i s (cs ++ [.mk nid .unchecked []]))
    else
      match insertF p nid cs with
      | some cs2 => some (.mk i s cs2)
      | none => none

def insertF (p nid : Nat) : List TreeN → Option (List TreeN)
  | [] => none
  | t :: ts =>
    match insertT p nid t with
    | some t2 => some (t2 :: ts)
    | none =>
      match insertF p nid ts with
      | some ts2 => some (t :: ts2)
      | none => none

end

/-- The `add_item` branch of `process_queue` (lines 836-853): insert the
described node into the store with the `unchecked` tag, under parent `p`
(`none` models tkinter's root `""`).  A duplicate `iid` or a missing parent
makes `tree.insert` raise before mutating anything, modelled as `none`. -/
def applyAddItem (parent : Option Nat) (nid : Nat) (f : List TreeN) :
    Option (List TreeN) :=
  if containsF nid f then none
  else
    match parent with
    | none => some (f ++ [.mk nid .unchecked []])
    | some p => insertF p nid f

/-! ### Helper lemmas about the checkbox tree -/

theorem deriveState_all (v : CheckState) (l : List CheckState) (hne : l ≠ [])
    (hall : l.all (· == v) = true) : deriveState l = v := by
  cases l with
  | nil => exact absurd rfl hne
  | cons a rest =>
    have ha : a = v := by
      simp only [List.all_cons, Bool.and_eq_true, beq_iff_eq] at hall
      exact hall.1
    cases v with
    | checked => simp [deriveState, hall]
    | unchecked =>
      have h1 : ((a :: rest).all (· == CheckState.checked)) = false := by
        subst ha; simp [List.all_cons]
      simp [deriveState, h1, hall]
    | mixed =>
      have h1 : ((a :: rest).all (· == CheckState.checked)) = false := by
        subst ha; simp [List.all_cons]
      have h2 : ((a :: rest).all (· == CheckState.unchecked)) = false := by
        subst ha; simp [List.all_cons]
      simp [deriveState, h1, h2]

theorem allStF_append (v : CheckState) (l₁ l₂ : List TreeN) :
    allStF v (l₁ ++ l₂) = (allStF v l₁ && allStF v l₂) := by
  induction l₁ with
  | nil => simp [allStF]
  | cons t ts ih => simp [allStF, ih, Bool.and_assoc]

theorem allStT_st (v : CheckState) (t : TreeN) (h : allStT v t = true) : t.st = v := by
  cases t with
  | mk i s cs =>
    simp only [allStT, Bool.and_eq_true, beq_iff_eq] at h
    exact h.1

theorem allStT_kids (v : CheckState) (t : TreeN) (h : allStT v t = true) :
    allStF v t.kids = true := by
  cases t with
  | mk i s cs =>
    simp only [allStT, Bool.and_eq_true] at h
    exact h.2

theorem allStF_states (v : CheckState) (l : List TreeN) (h : allStF v l = true) :
    (l.map TreeN.st).all (· == v) = true := by
  induction l with
  | nil => simp
  | cons t ts ih =>
    simp only [allStF, Bool.and_eq_true] at h
    simp [List.all_cons, allStT_st v t h.1, ih h.2]

mutual

theorem propagateSet_allSt (v : CheckState) (t : TreeN) :
    allStT v (propagateSet v t) = true := by
  cases t with
  | mk i s cs =>
    have h := propLoop_allSt v v [] cs rfl
    simp only [propagateSet, allStT, Bool.and_eq_true, beq_iff_eq]
    refine ⟨?_, h.1⟩
    cases cs with
    | nil => exact h.2.1 rfl
    | cons c rest => exact h.2.2 (by simp)

theorem propLoop_allSt (v s : CheckState) (done l : List TreeN)
    (hd : allStF v done = true) :
    allStF v (propLoop v s done l).2 = true ∧
    (l = [] → (propLoop v s done l).1 = s) ∧
    (l ≠ [] → (propLoop v s done l).1 = v) := by
  cases l with
  | nil => exact ⟨hd, fun _ => rfl, fun h => absurd rfl h⟩
  | cons c rest =>
    have hc2 : allStT v (propagateSet v c) = true := propagateSet_allSt v c
    have hd2 : allStF v (done ++ [propagateSet v c]) = true := by
      simp [allStF_append, hd, allStF, hc2]
    have ih := propLoop_allSt v
      (deriveState ((done ++ propagateSet v c :: rest).map TreeN.st))
      (done ++ [propagateSet v c]) rest hd2
    cases rest with
    | nil =>
      refine ⟨ih.1, fun h => by simp at h, fun _ => ?_⟩
      have hall : ((done ++ [propagateSet v c]).map TreeN.st).all (· == v) = true :=
        allStF_states v _ hd2
      simp only [propLoop]
      refine deriveState_all v _ (by simp) ?_
      simpa using hall
    | cons c2 rest2 =>
      exact ⟨ih.1, fun h => by simp at h, fun _ => ih.2.2 (by simp)⟩

end

mutual

theorem allStT_subnodes (v : CheckState) (t : TreeN) (h : allStT v t = true) :
    ∀ n ∈ subnodesT t, allStT v n = true := by
  cases t with
  | mk i s cs =>
    intro n hn
    simp only [subnodesT, List.mem_cons] at hn
    rcases hn with hn | hn
    · exact hn ▸ h
    · have hcs : allStF v cs = true := by
        simp only [allStT, Bool.and_eq_true] at h
        exact h.2
      exact allStF_subnodes v cs hcs n hn

theorem allStF_subnodes (v : CheckState) (l : List TreeN) (h : allStF v l = true) :
    ∀ n ∈ subnodesF l, allStT v n = true := by
  cases l with
  | nil => intro n hn; simp [subnodesF] at hn
  | cons t ts =>
    intro n hn
    simp only [allStF, Bool.and_eq_true] at h
    simp only [subnodesF, List.mem_append] at hn
    rcases hn with hn | hn
    · exact allStT_subnodes v t h.1 n hn
    · exact allStF_subnodes v ts h.2 n hn

end

theorem propagateSet_iid (v : CheckState) (t : TreeN) :
    (propagateSet v t).iid = t.iid := by
  cases t with
  | mk i s cs => simp [propagateSet, TreeN.iid]

theorem toggleT_iid (x : Nat) (v : CheckState) (t : TreeN) :
    (toggleT x v t).iid = t.iid := by
  cases t with
  | mk i s cs =>
    simp only [toggleT]
    split
    · exact propagateSet_iid v (.mk i s cs)
    · split <;> simp [TreeN.iid]

theorem toggleF_iids (x : Nat) (v : CheckState) (l : List TreeN) :
    (toggleF x v l).map TreeN.iid = l.map TreeN.iid := by
  induction l with
  | nil => rfl
  | cons t ts ih => simp [toggleF, toggleT_iid, ih]

theorem toggleF_any_iid (x : Nat) (v : CheckState) (l : List TreeN) :
    (toggleF x v l).any (fun c => c.iid == x) = l.any (fun c => c.iid == x) := by
  have h1 : ∀ m : List TreeN, m.any (fun c => c.iid == x) =
      (m.map TreeN.iid).any (· == x) := by
    intro m; induction m with
    | nil => rfl
    | cons t ts ih => simp [List.any_cons, ih]
  rw [h1, h1, toggleF_iids]

mutual

theorem toggleT_x_allSt (x : Nat) (v : CheckState) (t : TreeN) :
    ∀ n ∈ subnodesT (toggleT x v t), n.iid = x → allStT v n = true := by
  cases t with
  | mk i s cs =>
    by_cases hix : (i == x) = true
    · have heq : toggleT x v (.mk i s cs) = propagateSet v (.mk i s cs) := by
        simp [toggleT, hix]
      rw [heq]
      intro n hn _
      exact allStT_subnodes v _ (propagateSet_allSt v _) n hn
    · have hix2 : (i == x) = false := by simpa using hix
      by_cases hde : cs.any (fun c => c.iid == x) = true
      · have heq : toggleT x v (.mk i s cs) =
            .mk i (deriveState ((toggleF x v cs).map TreeN.st)) (toggleF x v cs) := by
          simp [toggleT, hix2, hde]
        rw [heq]
        intro n hn hnx
        simp only [subnodesT, List.mem_cons] at hn
        rcases hn with rfl | hn
        · exact absurd hnx (by simpa [TreeN.iid] using hix)
        · exact toggleF_x_allSt x v cs n hn hnx
      · have heq : toggleT x v (.mk i s cs) = .mk i s (toggleF x v cs) := by
          simp [toggleT, hix2, hde]
        rw [heq]
        intro n hn hnx
        simp only [subnodesT, List.mem_cons] at hn
        rcases hn with rfl | hn
        · exact absurd hnx (by simpa [TreeN.iid] using hix)
        · exact toggleF_x_allSt x v cs n hn hnx

theorem toggleF_x_allSt (x : Nat) (v : CheckState) (l : List TreeN) :
    ∀ n ∈ subnodesF (toggleF x v l), n.iid = x → allStT v n = true := by
  cases l with
  | nil => intro n hn; simp [toggleF, subnodesF] at hn
  | cons t ts =>
    intro n hn hnx
    simp only [toggleF, subnodesF, List.mem_append] at hn
    rcases hn with hn | hn
    · exact toggleT_x_allSt x v t n hn hnx
    · exact toggleF_x_allSt x v ts n hn hnx

end

mutual

theorem toggleT_parent_derived (x : Nat) (v : CheckState) (t : TreeN) :
    ∀ p ∈ subnodesT (toggleT x v t), p.kids.any (fun c => c.iid == x) = true →
      p.st = deriveState (p.kids.map TreeN.st) := by
  cases t with
  | mk i s cs =>
    by_cases hix : (i == x) = true
    · have heq : toggleT x v (.mk i s cs) = propagateSet v (.mk i s cs) := by
        simp [toggleT, hix]
      rw [heq]
      intro p hp hany
      have hall := allStT_subnodes v _ (propagateSet_allSt v (.mk i s cs)) p hp
      have hne : p.kids ≠ [] := by
        intro he
        rw [he] at hany
        simp at hany
      rw [allStT_st v p hall]
      refine (deriveState_all v _ ?_ (allStF_states v _ (allStT_kids v p hall))).symm
      simpa [List.map_eq_nil_iff] using hne
    · have hix2 : (i == x) = false := by simpa using hix
      by_cases hde : cs.any (fun c => c.iid == x) = true
      · have heq : toggleT x v (.mk i s cs) =
            .mk i (deriveState ((toggleF x v cs).map TreeN.st)) (toggleF x v cs) := by
          simp [toggleT, hix2, hde]
        rw [heq]
        intro p hp hany
        simp only [subnodesT, List.mem_cons] at hp
        rcases hp with rfl | hp
        · simp [TreeN.st, TreeN.kids]
        · exact toggleF_parent_derived x v cs p hp hany
      · have heq : toggleT x v (.mk i s cs) = .mk i s (toggleF x v cs) := by
          simp [toggleT, hix2, hde]
        rw [heq]
        intro p hp hany
        simp only [subnodesT, List.mem_cons] at hp
        rcases hp with rfl | hp
        · rw [TreeN.kids, toggleF_any_iid] at hany
          exact absurd hany (by simpa using hde)
        · exact toggleF_parent_derived x v cs p hp hany

theorem toggleF_parent_derived (x : Nat) (v : CheckState) (l : List TreeN) :
    ∀ p ∈ subnodesF (toggleF x v l), p.kids.any (fun c => c.iid == x) = true →
      p.st = deriveState (p.kids.map TreeN.st) := by
  cases l with
  | nil => intro p hp; simp [toggleF, subnodesF] at hp
  | cons t ts =>
    intro p hp hany
    simp only [toggleF, subnodesF, List.mem_append] at hp
    rcases hp with hp | hp
    · exact toggleT_parent_derived x v t p hp hany
    · exact toggleF_parent_derived x v ts p hp hany

end

mutual

theorem getStateT_none (x : Nat) (t : TreeN) (h : containsT x t = false) :
    getStateT x t = none := by
  cases t with
  | mk i s cs =>
    simp only [containsT, Bool.or_eq_false_iff] at h
    simp [getStateT, h.1, getStateF_none x cs h.2]

theorem getStateF_none (x : Nat) (l : List TreeN) (h : containsF x l = false) :
    getStateF x l = none := by
  cases l with
  | nil => rfl
  | cons t ts =>
    simp only [containsF, Bool.or_eq_false_iff] at h
    simp [getStateF, getStateT_none x t h.1, getStateF_none x ts h.2]

end

/-! ### Claims C1, C4, C8 -/

/-- C1, counterexample.  The claim asserts that after any sequence of toggles
every non-leaf node's tag is the derived function of its children, because
`toggle` recomputes every ancestor up to the root.  Starting from a freshly
loaded (all `unchecked`, fully consistent) store with the chain 1 → 2 → 3, a
single `toggle_check(3)` checks node 3, re-derives only the immediate parent
2, and leaves the grandparent 1 `unchecked` even though its derived state is
`checked` — the invariant is broken and the ancestor chain was not walked. -/
theorem c1_counterexample :
    consistentF [TreeN.mk 1 .unchecked [TreeN.mk 2 .unchecked [TreeN.mk 3 .unchecked []]]]
      = true ∧
    toggleCheck 3 [TreeN.mk 1 .unchecked [TreeN.mk 2 .unchecked [TreeN.mk 3 .unchecked []]]]
      = some [TreeN.mk 1 .unchecked [TreeN.mk 2 .checked [TreeN.mk 3 .checked []]]] ∧
    consistentF [TreeN.mk 1 .unchecked [TreeN.mk 2 .checked [TreeN.mk 3 .checked []]]]
      = false :=
  ⟨rfl, rfl, rfl⟩

/-- C1 (amended): `toggle_check` recomputes the derived state only for the
immediate parent of the toggled node, not for every ancestor up to the root.
After a successful toggle of `x`, every node whose direct-children list
contains `x` carries exactly the tag derived from its children; nodes higher
up are not recomputed (see the counterexample for the resulting violation of
the full invariant). -/
theorem c1_amended_parent_derived (f : List TreeN) (x : Nat) (f2 : List TreeN)
    (h : toggleCheck x f = some f2) :
    ∀ p ∈ subnodesF f2, p.kids.any (fun c => c.iid == x) = true →
      p.st = deriveState (p.kids.map TreeN.st) := by
  rcases hs : getStateF x f with _ | s
  · rw [toggleCheck, hs] at h
    cases h
  · rw [toggleCheck, hs] at h
    have h2 := Option.some.inj h
    exact h2 ▸ toggleF_parent_derived x (flipSt s) f

/-- Witness for `c1_amended_parent_derived` at a concrete two-level store. -/
theorem c1_amended_witness :
    toggleCheck 2 [TreeN.mk 1 .unchecked [TreeN.mk 2 .unchecked []]] =
      some [TreeN.mk 1 .checked [TreeN.mk 2 .checked []]] ∧
    ∀ p ∈ subnodesF [TreeN.mk 1 .checked [TreeN.mk 2 .checked []]],
      p.kids.any (fun c => c.iid == 2) = true →
      p.st = deriveState (p.kids.map TreeN.st) :=
  ⟨rfl, c1_amended_parent_derived [TreeN.mk 1 .unchecked [TreeN.mk 2 .unchecked []]] 2
    [TreeN.mk 1 .checked [TreeN.mk 2 .checked []]] rfl⟩

/-- C4: `toggle_check(x)` flips a `checked` node to `unchecked` and any other
node (`unchecked` or `mixed`) to `checked`, and sets the toggled node and
every one of its descendants to that same resulting tag. -/
theorem c4_toggle_flips_and_propagates (f : List TreeN) (x : Nat) (s : CheckState)
    (h : getStateF x f = some s) :
    toggleCheck x f = some (toggleF x (flipSt s) f) ∧
    flipSt .checked = .unchecked ∧ flipSt .unchecked = .checked ∧ flipSt .mixed = .checked ∧
    ∀ n ∈ subnodesF (toggleF x (flipSt s) f), n.iid = x → allStT (flipSt s) n = true := by
  exact ⟨by rw [toggleCheck, h], rfl, rfl, rfl, toggleF_x_allSt x (flipSt s) f⟩

/-- Witness for `c4_toggle_flips_and_propagates`: toggling the `mixed` root of
a concrete store. -/
theorem c4_witness :
    getStateF 1 [TreeN.mk 1 .mixed [TreeN.mk 2 .unchecked [], TreeN.mk 3 .checked []]] =
      some .mixed ∧
    (toggleCheck 1 [TreeN.mk 1 .mixed [TreeN.mk 2 .unchecked [], TreeN.mk 3 .checked []]] =
      some (toggleF 1 (flipSt .mixed)
        [TreeN.mk 1 .mixed [TreeN.mk 2 .unchecked [], TreeN.mk 3 .checked []]]) ∧
    flipSt .checked = .unchecked ∧ flipSt .unchecked = .checked ∧ flipSt .mixed = .checked ∧
    ∀ n ∈ subnodesF (toggleF 1 (flipSt .mixed)
        [TreeN.mk 1 .mixed [TreeN.mk 2 .unchecked [], TreeN.mk 3 .checked []]]),
      n.iid = 1 → allStT (flipSt .mixed) n = true) :=
  ⟨rfl, c4_toggle_flips_and_propagates _ 1 .mixed rfl⟩

/-- C8: `toggle_check` on an id that is not in the store fails on its very
first statement — the `self.item(item, "tags")` read raises `TclError` — so
the error is reported to the caller and no node's tag is written (the result
is `none` and the store value is untouched). -/
theorem c8_unknown_id_error (f : List TreeN) (x : Nat) (h : containsF x f = false) :
    toggleCheck x f = none := by
  rw [toggleCheck, getStateF_none x f h]

/-- Witness for `c8_unknown_id_error` at a concrete store and missing id. -/
theorem c8_witness :
    containsF 5 [TreeN.mk 1 .unchecked [TreeN.mk 2 .checked []]] = false ∧
    toggleCheck 5 [TreeN.mk 1 .unchecked [TreeN.mk 2 .checked []]] = none :=
  ⟨rfl, c8_unknown_id_error _ 5 rfl⟩

/-! ### Lemmas for insertion (claim C10) -/

theorem pairsF_append (l₁ l₂ : List TreeN) :
    pairsF (l₁ ++ l₂) = pairsF l₁ ++ pairsF l₂ := by
  induction l₁ with
  | nil => simp [pairsF]
  | cons t ts ih => simp [pairsF, ih]

mutual

theorem pairsT_ne (x : Nat) (t : TreeN) (h : containsT x t = false) :
    ∀ q ∈ pairsT t, (q.1 == x) = false := by
  cases t with
  | mk i s cs =>
    simp only [containsT, Bool.or_eq_false_iff] at h
    intro q hq
    simp only [pairsT, List.mem_cons] at hq
    rcases hq with rfl | hq
    · exact h.1
    · exact pairsF_ne x cs h.2 q hq

theorem pairsF_ne (x : Nat) (l : List TreeN) (h : containsF x l = false) :
    ∀ q ∈ pairsF l, (q.1 == x) = false := by
  cases l with
  | nil => intro q hq; simp [pairsF] at hq
  | cons t ts =>
    simp only [containsF, Bool.or_eq_false_iff] at h
    intro q hq
    simp only [pairsF, List.mem_append] at hq
    rcases hq with hq | hq
    · exact pairsT_ne x t h.1 q hq
    · exact pairsF_ne x ts h.2 q hq

end

theorem filter_keep (nid : Nat) (L : List (Nat × CheckState))
    (h : ∀ q ∈ L, (q.1 == nid) = false) :
    L.filter (fun q => !(q.1 == nid)) = L ∧ L.filter (fun q => q.1 == nid) = [] := by
  induction L with
  | nil => simp
  | cons q rest ih =>
    have hq := h q (List.mem_cons_self q rest)
    have ih2 := ih (fun r hr => h r (List.mem_cons_of_mem q hr))
    simp [List.filter_cons, hq, ih2.1, ih2.2]

mutual

theorem insertT_pairs (p nid : Nat) (t t2 : TreeN) (hfresh : containsT nid t = false)
    (h : insertT p nid t = some t2) :
    (pairsT t2).filter (fun q => !(q.1 == nid)) = pairsT t ∧
    (pairsT t2).filter (fun q => q.1 == nid) = [(nid, CheckState.unchecked)] := by
  cases t with
  | mk i s cs =>
    simp only [containsT, Bool.or_eq_false_iff] at hfresh
    have hk := filter_keep nid (pairsF cs) (pairsF_ne nid cs hfresh.2)
    by_cases hip : (i == p) = true
    · simp only [insertT, hip, if_true] at h
      have h2 := Option.some.inj h
      subst h2
      constructor
      · simp [pairsT, pairsF_append, pairsF, List.filter_append, List.filter_cons,
          hfresh.1, hk.1, hk.2]
      · simp [pairsT, pairsF_append, pairsF, List.filter_append, List.filter_cons,
          hfresh.1, hk.1, hk.2]
    · have hip2 : (i == p) = false := by simpa using hip
      simp only [insertT, hip2, Bool.false_eq_true, if_false] at h
      rcases hins : insertF p nid cs with _ | cs2
      · rw [hins] at h
        simp at h
      · rw [hins] at h
        simp only [] at h
        have h2 := Option.some.inj h
        subst h2
        have ihf := insertF_pairs p nid cs cs2 hfresh.2 hins
        constructor
        · simp [pairsT, List.filter_cons, hfresh.1, ihf.1]
        · simp [pairsT, List.filter_cons, hfresh.1, ihf.2]

theorem insertF_pairs (p nid : Nat) (l l2 : List TreeN) (hfresh : containsF nid l = false)
    (h : insertF p nid l = some l2) :
    (pairsF l2).filter (fun q => !(q.1 == nid)) = pairsF l ∧
    (pairsF l2).filter (fun q => q.1 == nid) = [(nid, CheckState.unchecked)] := by
  cases l with
  | nil => simp [insertF] at h
  | cons t ts =>
    simp only [containsF, Bool.or_eq_false_iff] at hfresh
    rcases hit : insertT p nid t with _ | tt2
    · rcases hits : insertF p nid ts with _ | ts2
      · simp only [insertF, hit, hits] at h
        cases h
      · simp only [insertF, hit, hits] at h
        have h2 := Option.some.inj h
        subst h2
        have ihf := insertF_pairs p nid ts ts2 hfresh.2 hits
        have hkt := filter_keep nid (pairsT t) (pairsT_ne nid t hfresh.1)
        constructor
        · simp [pairsF, List.filter_append, hkt.1, ihf.1]
        · simp [pairsF, List.filter_append, hkt.2, ihf.2]
    · simp only [insertF, hit] at h
      have h2 := Option.some.inj h
      subst h2
      have iht := insertT_pairs p nid t tt2 hfresh.1 hit
      have hks := filter_keep nid (pairsF ts) (pairsF_ne nid ts hfresh.2)
      constructor
      · simp [pairsF, List.filter_append, iht.1, hks.1]
      · simp [pairsF, List.filter_append, iht.2, hks.2]

end

/-- C10: applying an `add_item` message inserts the described node with the
`unchecked` tag and does not touch any existing node: the `(iid, tag)` pairs
of the store other than the new one are exactly the pairs before insertion
(in the same order), and in particular the parent's tag is never recomputed,
whatever it is. -/
theorem c10_insert_frame (f : List TreeN) (pOpt : Option Nat) (nid : Nat)
    (f2 : List TreeN) (h : applyAddItem pOpt nid f = some f2) :
    (pairsF f2).filter (fun q => !(q.1 == nid)) = pairsF f ∧
    (pairsF f2).filter (fun q => q.1 == nid) = [(nid, CheckState.unchecked)] := by
  by_cases hc : containsF nid f = true
  · simp [applyAddItem, hc] at h
  · have hc2 : containsF nid f = false := by simpa using hc
    simp only [applyAddItem, hc2, Bool.false_eq_true, if_false] at h
    cases pOpt with
    | none =>
      have h2 := Option.some.inj h
      subst h2
      have hk := filter_keep nid (pairsF f) (pairsF_ne nid f hc2)
      constructor
      · simp [pairsF_append, pairsF, pairsT, List.filter_append, List.filter_cons,
          hk.1, hk.2]
      · simp [pairsF_append, pairsF, pairsT, List.filter_append, List.filter_cons,
          hk.1, hk.2]
    | some p => exact insertF_pairs p nid f f2 hc2 h

/-- Witness for `c10_insert_frame`: inserting under a `checked` parent leaves
the parent `checked`. -/
theorem c10_witness :
    applyAddItem (some 1) 2 [TreeN.mk 1 .checked []] =
      some [TreeN.mk 1 .checked [TreeN.mk 2 .unchecked []]] ∧
    ((pairsF [TreeN.mk 1 .checked [TreeN.mk 2 .unchecked []]]).filter
        (fun q => !(q.1 == 2)) = pairsF [TreeN.mk 1 .checked []] ∧
      (pairsF [TreeN.mk 1 .checked [TreeN.mk 2 .unchecked []]]).filter
        (fun q => q.1 == 2) = [(2, CheckState.unchecked)]) :=
  ⟨rfl, c10_insert_frame [TreeN.mk 1 .checked []] (some 1) 2
    [TreeN.mk 1 .checked [TreeN.mk 2 .unchecked []]] rfl⟩

/-! ### Lemmas for double toggling (claim C9) -/

theorem propLoop_snd (v : CheckState) (s : CheckState) (done l : List TreeN) :
    (propLoop v s done l).2 = done ++ l.map (propagateSet v) := by
  induction l generalizing s done with
  | nil => simp [propLoop]
  | cons c rest ih => simp [propLoop, ih]

mutual

theorem containsT_propagate (y : Nat) (v : CheckState) (t : TreeN) :
    containsT y (propagateSet v t) = containsT y t := by
  cases t with
  | mk i s cs =>
    simp only [propagateSet, containsT]
    rw [propLoop_snd]
    simp only [List.nil_append]
    rw [containsF_map_propagate y v cs]

theorem containsF_map_propagate (y : Nat) (v : CheckState) (l : List TreeN) :
    containsF y (l.map (propagateSet v)) = containsF y l := by
  cases l with
  | nil => rfl
  | cons t ts =>
    simp only [List.map_cons, containsF]
    rw [containsT_propagate y v t, containsF_map_propagate y v ts]

end

mutual

theorem containsT_toggle (y x : Nat) (v : CheckState) (t : TreeN) :
    containsT y (toggleT x v t) = containsT y t := by
  cases t with
  | mk i s cs =>
    by_cases hix : (i == x) = true
    · simp [toggleT, hix, containsT_propagate]
    · have hix2 : (i == x) = false := by simpa using hix
      by_cases hany : cs.any (fun c => c.iid == x) = true
      · simp only [toggleT, hix2, Bool.false_eq_true, if_false, hany, if_true, containsT]
        rw [containsF_toggle y x v cs]
      · have hany2 : cs.any (fun c => c.iid == x) = false := by simpa using hany
        simp only [toggleT, hix2, Bool.false_eq_true, if_false, hany2, containsT]
        rw [containsF_toggle y x v cs]

theorem containsF_toggle (y x : Nat) (v : CheckState) (l : List TreeN) :
    containsF y (toggleF x v l) = containsF y l := by
  cases l with
  | nil => rfl
  | cons t ts =>
    simp only [toggleF, containsF]
    rw [containsT_toggle y x v t, containsF_toggle y x v ts]

end

mutual

theorem getStateT_all_x (x : Nat) (v : CheckState) (t : TreeN)
    (hc : containsT x t = true)
    (hx : ∀ n ∈ subnodesT t, n.iid = x → n.st = v) : getStateT x t = some v := by
  cases t with
  | mk i stv cs =>
    by_cases hix : (i == x) = true
    · have hroot : stv = v := by
        have := hx (.mk i stv cs) (by simp [subnodesT]) (by simpa [TreeN.iid] using hix)
        simpa [TreeN.st] using this
      simp [getStateT, hix, hroot]
    · have hix2 : (i == x) = false := by simpa using hix
      simp only [containsT, hix2, Bool.false_or] at hc
      simp only [getStateT, hix2, Bool.false_eq_true, if_false]
      refine getStateF_all_x x v cs hc ?_
      intro n hn hnx
      exact hx n (by simp only [subnodesT, List.mem_cons]; right; exact hn) hnx

theorem getStateF_all_x (x : Nat) (v : CheckState) (l : List TreeN)
    (hc : containsF x l = true)
    (hx : ∀ n ∈ subnodesF l, n.iid = x → n.st = v) : getStateF x l = some v := by
  cases l with
  | nil => simp [containsF] at hc
  | cons t ts =>
    by_cases hct : containsT x t = true
    · have h1 : getStateT x t = some v := by
        refine getStateT_all_x x v t hct ?_
        intro n hn hnx
        exact hx n (by simp only [subnodesF, List.mem_append]; left; exact hn) hnx
      simp [getStateF, h1]
    · have hct2 : containsT x t = false := by simpa using hct
      simp only [containsF, hct2, Bool.false_or] at hc
      have h2 : getStateF x ts = some v := by
        refine getStateF_all_x x v ts hc ?_
        intro n hn hnx
        exact hx n (by simp only [subnodesF, List.mem_append]; right; exact hn) hnx
      simp [getStateF, getStateT_none x t hct2, h2]

end

theorem flipSt_flipSt (s : CheckState) (hs : s ≠ .mixed) : flipSt (flipSt s) = s := by
  cases s with
  | checked => rfl
  | unchecked => rfl
  | mixed => exact absurd rfl hs

mutual

/-- The precondition under which double toggling of `x` is an identity: every
node with id `x` is a leaf carrying tag `s`, and every node having such a
direct child already satisfies the derived-state equation (the state the
immediate parent will be recomputed to equals the one it holds). -/
def okDoubleT (x : Nat) (s : CheckState) : TreeN → Bool
  | .mk i stv cs =>
    (if i == x then cs.isEmpty && stv == s else true) &&
    (if cs.any (fun c => c.iid == x) then stv == deriveState (cs.map TreeN.st) else true) &&
    okDoubleF x s cs

def okDoubleF (x : Nat) (s : CheckState) : List TreeN → Bool
  | [] => true
  | t :: ts => okDoubleT x s t && okDoubleF x s ts

end

theorem okDoubleT_parts (x : Nat) (s : CheckState) (i : Nat) (stv : CheckState)
    (cs : List TreeN) (h : okDoubleT x s (.mk i stv cs) = true) :
    ((i == x) = true → cs = [] ∧ stv = s) ∧
    (cs.any (fun c => c.iid == x) = true → stv = deriveState (cs.map TreeN.st)) ∧
    okDoubleF x s cs = true := by
  simp only [okDoubleT, Bool.and_eq_true] at h
  obtain ⟨⟨h1, h2⟩, h3⟩ := h
  refine ⟨?_, ?_, h3⟩
  · intro hix
    rw [hix] at h1
    simp only [if_true, Bool.and_eq_true, beq_iff_eq, List.isEmpty_iff] at h1
    exact h1
  · intro hany
    rw [hany] at h2
    simpa using h2

mutual

theorem toggleTT_id (x : Nat) (s : CheckState) (hs : s ≠ .mixed) (t : TreeN)
    (hok : okDoubleT x s t = true) :
    toggleT x s (toggleT x (flipSt s) t) = t := by
  cases t with
  | mk i stv cs =>
    have parts := okDoubleT_parts x s i stv cs hok
    by_cases hix : (i == x) = true
    · obtain ⟨hcs, hst⟩ := parts.1 hix
      subst hcs
      subst hst
      have e1 : toggleT x (flipSt stv) (TreeN.mk i stv []) = TreeN.mk i (flipSt stv) [] := by
        simp [toggleT, hix, propagateSet, propLoop]
      rw [e1]
      simp [toggleT, hix, propagateSet, propLoop]
    · have hix2 : (i == x) = false := by simpa using hix
      by_cases hany : cs.any (fun c => c.iid == x) = true
      · have e1 : toggleT x (flipSt s) (TreeN.mk i stv cs) =
            TreeN.mk i (deriveState ((toggleF x (flipSt s) cs).map TreeN.st))
              (toggleF x (flipSt s) cs) := by
          simp [toggleT, hix2, hany]
        have hany2 : (toggleF x (flipSt s) cs).any (fun c => c.iid == x) = true := by
          rw [toggleF_any_iid]; exact hany
        have e2 : toggleT x s (TreeN.mk i
              (deriveState ((toggleF x (flipSt s) cs).map TreeN.st))
              (toggleF x (flipSt s) cs)) =
            TreeN.mk i (deriveState ((toggleF x s (toggleF x (flipSt s) cs)).map TreeN.st))
              (toggleF x s (toggleF x (flipSt s) cs)) := by
          simp [toggleT, hix2, hany2]
        rw [e1, e2, toggleFF_id x s hs cs parts.2.2]
        rw [← parts.2.1 hany]
      · have hany2 : cs.any (fun c => c.iid == x) = false := by simpa using hany
        have hany3 : (toggleF x (flipSt s) cs).any (fun c => c.iid == x) = false := by
          rw [toggleF_any_iid]; exact hany2
        have e1 : toggleT x (flipSt s) (TreeN.mk i stv cs) =
            TreeN.mk i stv (toggleF x (flipSt s) cs) := by
          simp [toggleT, hix2, hany2]
        have e2 : toggleT x s (TreeN.mk i stv (toggleF x (flipSt s) cs)) =
            TreeN.mk i stv (toggleF x s (toggleF x (flipSt s) cs)) := by
          simp [toggleT, hix2, hany3]
        rw [e1, e2, toggleFF_id x s hs cs parts.2.2]

theorem toggleFF_id (x : Nat) (s : CheckState) (hs : s ≠ .mixed) (l : List TreeN)
    (hok : okDoubleF x s l = true) :
    toggleF x s (toggleF x (flipSt s) l) = l := by
  cases l with
  | nil => rfl
  | cons t ts =>
    simp only [okDoubleF, Bool.and_eq_true] at hok
    simp only [toggleF]
    rw [toggleTT_id x s hs t hok.1, toggleFF_id x s hs ts hok.2]

end

mutual

theorem getStateT_okD (x : Nat) (s : CheckState) (t : TreeN)
    (hok : okDoubleT x s t = true) (hc : containsT x t = true) :
    getStateT x t = some s := by
  cases t with
  | mk i stv cs =>
    have parts := okDoubleT_parts x s i stv cs hok
    by_cases hix : (i == x) = true
    · simp [getStateT, hix, (parts.1 hix).2]
    · have hix2 : (i == x) = false := by simpa using hix
      simp only [containsT, hix2, Bool.false_or] at hc
      simp only [getStateT, hix2, Bool.false_eq_true, if_false]
      exact getStateF_okD x s cs parts.2.2 hc

theorem getStateF_okD (x : Nat) (s : CheckState) (l : List TreeN)
    (hok : okDoubleF x s l = true) (hc : containsF x l = true) :
    getStateF x l = some s := by
  cases l with
  | nil => simp [containsF] at hc
  | cons t ts =>
    simp only [okDoubleF, Bool.and_eq_true] at hok
    by_cases hct : containsT x t = true
    · simp [getStateF, getStateT_okD x s t hok.1 hct]
    · have hct2 : containsT x t = false := by simpa using hct
      simp only [containsF, hct2, Bool.false_or] at hc
      simp [getStateF, getStateT_none x t hct2, getStateF_okD x s ts hok.2 hc]

end

/-! ### Claim C9 -/

/-- C9, counterexample.  Starting from the freshly loaded (all `unchecked`)
store 1 → {2 → {3}, 4}, the reachable state after `toggle_check(3)` has node
2 `checked` but node 1 still `unchecked` (only the immediate parent was
recomputed).  Toggling the leaf 4 twice from that state leaves leaf 4 itself
restored, but its immediate parent 1 — an affected ancestor — ends `mixed`
instead of its pre-toggle `unchecked`: double toggling is not an identity on
the reachable states of this store. -/
theorem c9_counterexample :
    toggleCheck 3 [TreeN.mk 1 .unchecked
        [TreeN.mk 2 .unchecked [TreeN.mk 3 .unchecked []], TreeN.mk 4 .unchecked []]] =
      some [TreeN.mk 1 .unchecked
        [TreeN.mk 2 .checked [TreeN.mk 3 .checked []], TreeN.mk 4 .unchecked []]] ∧
    toggleCheck 4 [TreeN.mk 1 .unchecked
        [TreeN.mk 2 .checked [TreeN.mk 3 .checked []], TreeN.mk 4 .unchecked []]] =
      some [TreeN.mk 1 .checked
        [TreeN.mk 2 .checked [TreeN.mk 3 .checked []], TreeN.mk 4 .checked []]] ∧
    toggleCheck 4 [TreeN.mk 1 .checked
        [TreeN.mk 2 .checked [TreeN.mk 3 .checked []], TreeN.mk 4 .checked []]] =
      some [TreeN.mk 1 .mixed
        [TreeN.mk 2 .checked [TreeN.mk 3 .checked []], TreeN.mk 4 .unchecked []]] ∧
    getStateF 1 [TreeN.mk 1 .unchecked
        [TreeN.mk 2 .checked [TreeN.mk 3 .checked []], TreeN.mk 4 .unchecked []]] =
      some .unchecked ∧
    getStateF 1 [TreeN.mk 1 .mixed
        [TreeN.mk 2 .checked [TreeN.mk 3 .checked []], TreeN.mk 4 .unchecked []]] =
      some .mixed :=
  ⟨rfl, rfl, rfl, rfl, rfl⟩

/-- C9 (amended): toggling the same leaf twice is an identity on the whole
store — restoring the leaf, its immediate parent (the only ancestor `toggle`
recomputes) and everything else — provided the leaf's tag is not `mixed` and
the immediate parent's tag already equals the state derived from its
children (`okDoubleF`).  When an ancestor's tag is stale, as reachable states
can be after earlier toggles, the restoration fails (see the
counterexample). -/
theorem c9_amended_double_toggle (f : List TreeN) (x : Nat) (s : CheckState)
    (hs : s ≠ .mixed) (hc : containsF x f = true) (hok : okDoubleF x s f = true) :
    (toggleCheck x f).bind (toggleCheck x) = some f := by
  have h1 : getStateF x f = some s := getStateF_okD x s f hok hc
  have hstep1 : toggleCheck x f = some (toggleF x (flipSt s) f) := by
    rw [toggleCheck, h1]
  have hc1 : containsF x (toggleF x (flipSt s) f) = true := by
    rw [containsF_toggle]
    exact hc
  have hx1 : ∀ n ∈ subnodesF (toggleF x (flipSt s) f), n.iid = x → n.st = flipSt s :=
    fun n hn hnx => allStT_st (flipSt s) n (toggleF_x_allSt x (flipSt s) f n hn hnx)
  have h2 : getStateF x (toggleF x (flipSt s) f) = some (flipSt s) :=
    getStateF_all_x x (flipSt s) _ hc1 hx1
  have hstep2 : toggleCheck x (toggleF x (flipSt s) f) =
      some (toggleF x (flipSt (flipSt s)) (toggleF x (flipSt s) f)) := by
    rw [toggleCheck, h2]
  rw [hstep1, Option.some_bind, hstep2, flipSt_flipSt s hs,
    toggleFF_id x s hs f hok]

/-- Witness for `c9_amended_double_toggle`: double toggling the leaf 2 of a
consistent two-node store is an identity. -/
theorem c9_amended_witness :
    CheckState.unchecked ≠ CheckState.mixed ∧
    containsF 2 [TreeN.mk 1 .unchecked [TreeN.mk 2 .unchecked []]] = true ∧
    okDoubleF 2 .unchecked [TreeN.mk 1 .unchecked [TreeN.mk 2 .unchecked []]] = true ∧
    (toggleCheck 2 [TreeN.mk 1 .unchecked [TreeN.mk 2 .unchecked []]]).bind (toggleCheck 2) =
      some [TreeN.mk 1 .unchecked [TreeN.mk 2 .unchecked []]] :=
  ⟨by decide, rfl, rfl,
    c9_amended_double_toggle [TreeN.mk 1 .unchecked [TreeN.mk 2 .unchecked []]] 2
      .unchecked (by decide) rfl rfl⟩

/-! ### Part 2: the scanner emission -/

/-- A filesystem snapshot entry: `item.is_dir()` distinguishes the two kinds,
and directories carry the entries `iterdir()` would yield (in raw,
pre-sorting order).  Size and mtime metadata are omitted: no claim concerns
them and they do not influence ids, ordering or structure. -/
inductive Fs where
  | file (name : String)
  | dir (name : String) (children : List Fs)
deriving Repr

def Fs.name : Fs → String
  | .file n => n
  | .dir n _ => n

def Fs.isDir : Fs → Bool
  | .file _ => false
  | .dir _ _ => true

/-- `item.name.startswith('.')` (line 733): hidden entries are skipped. -/
def isHidden (s : String) : Bool :=
  match s.data with
  | [] => false
  | c :: _ => c == '.'

/-- `x.name.lower()` (line 739), as a character list (per-character ASCII
case folding, compared by code point exactly as Python compares strings). -/
def lowerKey (s : String) : List Char := s.data.map Char.toLower

/-- Code-point-wise lexicographic comparison of two character lists, the
order Python uses for `str` comparison. -/
def lexLe : List Char → List Char → Bool
  | [], _ => true
  | _ :: _, [] => false
  | a :: as, b :: bs =>
    if a.toNat < b.toNat then true
    else if a.toNat == b.toNat then lexLe as bs
    else false

/-- The sort key of line 739: `(not x.is_dir(), x.name.lower())`. -/
def sortKey (e : Fs) : Bool × List Char := (!e.isDir, lowerKey e.name)

/-- Lexicographic comparison of sort keys; on the booleans `False < True`
(directories before files), ties broken by the lowercased name. -/
def keyLe (k₁ k₂ : Bool × List Char) : Bool :=
  if k₁.1 == k₂.1 then lexLe k₁.2 k₂.2 else k₂.1

def entryLe (a b : Fs) : Bool := keyLe (sortKey a) (sortKey b)

/-- One step of a stable sort by `entryLe`: the new element goes after every
element it does not strictly precede, as Python's stable `list.sort` keeps
ties in encounter order. -/
def insertSorted (x : Fs) : List Fs → List Fs
  | [] => [x]
  | y :: ys => if entryLe y x then y :: insertSorted x ys else x :: y :: ys

/-- `items.sort(key=lambda x: (not x.is_dir(), x.name.lower()))` (line 739),
as a stable insertion sort (Python's sort is also stable, so the resulting
sequences agree). -/
def sortEntries (l : List Fs) : List Fs :=
  l.foldl (fun acc x => insertSorted x acc) []

/-- The order in which `add_items` walks (and hence inserts) the entries of
one directory: hidden names skipped (line 733), then sorted (line 739). -/
def childInsertOrder (es : List Fs) : List Fs :=
  sortEntries (es.filter (fun e => !(isHidden e.name)))

/-- A path under the scanned root, as its list of name components. -/
abbrev DirPath := List String

/-- `str(hash(item))` (line 767): the item id is the string form of the
process hash of the entry's path.  Python's per-process seeded hash is the
parameter `h`. -/
def idStr (h : DirPath → Nat) (p : DirPath) : String := toString (h p)

/-- One `add_item` message as put on the queue (lines 765-774): the id, the
parent id (`""` for entries of the root directory), the kind and the display
name.  The `path` field is the ghost identity of the described entry (its
path relative to the root), used only to state properties. -/
structure Ev where
  path : DirPath
  iid : String
  pid : String
  isDir : Bool
  name : String
deriving Repr, DecidableEq

theorem sizeOf_insertSorted (x : Fs) (l : List Fs) :
    sizeOf (insertSorted x l) = 1 + sizeOf x + sizeOf l := by
  induction l with
  | nil => simp [insertSorted]
  | cons y ys ih =>
    simp only [insertSorted]
    split <;> (simp; (try omega))

theorem sizeOf_sortEntries (l : List Fs) : sizeOf (sortEntries l) = sizeOf l := by
  suffices h : ∀ acc : List Fs,
      sizeOf (l.foldl (fun acc x => insertSorted x acc) acc) + 1 = sizeOf acc + sizeOf l by
    have h2 := h []
    simp only [sortEntries]
    simp at h2
    omega
  induction l with
  | nil => intro acc; simp
  | cons x xs ih =>
    intro acc
    simp only [List.foldl_cons]
    rw [ih (insertSorted x acc), sizeOf_insertSorted]
    simp
    omega

theorem sizeOf_fsFilter (p : Fs → Bool) (l : List Fs) : sizeOf (l.filter p) ≤ sizeOf l := by
  induction l with
  | nil => simp
  | cons x xs ih =>
    simp only [List.filter_cons]
    split <;> simp only [List.cons.sizeOf_spec] <;> omega

theorem sizeOf_childInsertOrder (es : List Fs) : sizeOf (childInsertOrder es) ≤ sizeOf es := by
  rw [childInsertOrder, sizeOf_sortEntries]
  exact sizeOf_fsFilter _ es

theorem sizeOf_childInsertOrder_lt (n : String) (cs : List Fs) :
    sizeOf (childInsertOrder cs) < sizeOf (Fs.dir n cs) := by
  have := sizeOf_childInsertOrder cs
  simp
  omega

mutual

/-- The `add_item` messages that `add_items` (lines 724-791) emits for one
visited entry: the entry's own message first (line 765), then — for a
directory — the messages of its subtree, obtained by recursing with the
entry's id as `parent_id` (line 784).  This is exactly the source's strict
pre-order. -/
def emitOne (h : DirPath → Nat) (base : DirPath) (pid : String) : Fs → List Ev
  | .file n => [⟨base ++ [n], idStr h (base ++ [n]), pid, false, n⟩]
  | .dir n cs =>
    ⟨base ++ [n], idStr h (base ++ [n]), pid, true, n⟩ ::
      emitList h (base ++ [n]) (idStr h (base ++ [n])) (childInsertOrder cs)
termination_by e => sizeOf e
decreasing_by
  rename_i n cs
  have := sizeOf_childInsertOrder cs
  simp
  omega

/-- The `for item in items` emission loop of `add_items`, over an
already-filtered-and-sorted entry list. -/
def emitList (h : DirPath → Nat) (base : DirPath) (pid : String) : List Fs → List Ev
  | [] => []
  | e :: es => emitOne h base pid e ++ emitList h base pid es
termination_by es => sizeOf es
decreasing_by
  all_goals simp
  all_goals omega

end

/-- The full message sequence of one (uncancelled) scan of `root`:
`add_items(root_path)` with `parent_id=""` (line 791). -/
def scan (h : DirPath → Nat) (root : List Fs) : List Ev :=
  emitList h [] "" (childInsertOrder root)

/-- The hash-independent part of an event: what entry is described, in which
position of the stream.  Two scans of the same snapshot agree on the shape
sequence even across processes (different hash seeds). -/
def evShape (e : Ev) : String × Bool := (e.name, e.isDir)

/-- Membership of a string in a list of ids. -/
def hasId (p : String) : List String → Bool
  | [] => false
  | s :: rest => p == s || hasId p rest

/-- The no-orphan check: walking the event list in order while accumulating
the ids inserted so far (`seen`, the Tree Store contents), every event's
parent is the root `""` or an id already inserted. -/
def noOrphan (seen : List String) : List Ev → Bool
  | [] => true
  | e :: rest => (e.pid == "" || hasId e.pid seen) && noOrphan (e.iid :: seen) rest

/-- No string occurs twice. -/
def nodupStr : List String → Bool
  | [] => true
  | s :: rest => !(hasId s rest) && nodupStr rest

mutual

/-- Well-formedness of a snapshot, which every real directory tree has: the
names inside any one directory are pairwise distinct. -/
def namesOkT : Fs → Bool
  | .file _ => true
  | .dir _ cs => nodupStr (cs.map Fs.name) && namesOkF cs

def namesOkF : List Fs → Bool
  | [] => true
  | t :: ts => namesOkT t && namesOkF ts

end

/-- Well-formedness of the root listing plus all nested directories. -/
def snapshotOk (l : List Fs) : Bool := nodupStr (l.map Fs.name) && namesOkF l

/-! ### Lemmas for the child insertion order (claim C6) -/

theorem lexLe_cons (x y : Char) (xs ys : List Char) :
    lexLe (x :: xs) (y :: ys) = true ↔
      x.toNat < y.toNat ∨ (x.toNat = y.toNat ∧ lexLe xs ys = true) := by
  simp only [lexLe]
  by_cases h1 : x.toNat < y.toNat
  · simp [h1]
  · by_cases h2 : x.toNat = y.toNat
    · simp [h1, h2]
    · have h3 : (x.toNat == y.toNat) = false := by simpa using h2
      simp [h1, h3, h2]

theorem lexLe_total (a b : List Char) : (lexLe a b || lexLe b a) = true := by
  induction a generalizing b with
  | nil => simp [lexLe]
  | cons x xs ih =>
    cases b with
    | nil => simp [lexLe]
    | cons y ys =>
      rw [Bool.or_eq_true, lexLe_cons, lexLe_cons]
      rcases Nat.lt_trichotomy x.toNat y.toNat with h | h | h
      · exact Or.inl (Or.inl h)
      · have h2 := ih ys
        rw [Bool.or_eq_true] at h2
        rcases h2 with h2 | h2
        · exact Or.inl (Or.inr ⟨h, h2⟩)
        · exact Or.inr (Or.inr ⟨h.symm, h2⟩)
      · exact Or.inr (Or.inl h)

theorem lexLe_trans (a b c : List Char) (h1 : lexLe a b = true) (h2 : lexLe b c = true) :
    lexLe a c = true := by
  induction a generalizing b c with
  | nil => simp [lexLe]
  | cons x xs ih =>
    cases b with
    | nil => simp [lexLe] at h1
    | cons y ys =>
      cases c with
      | nil => simp [lexLe] at h2
      | cons z zs =>
        rw [lexLe_cons] at h1 h2 ⊢
        rcases h1 with h1 | ⟨h1e, h1l⟩ <;> rcases h2 with h2 | ⟨h2e, h2l⟩
        · exact Or.inl (by omega)
        · exact Or.inl (by omega)
        · exact Or.inl (by omega)
        · exact Or.inr ⟨by omega, ih ys zs h1l h2l⟩

theorem keyLe_iff (b₁ b₂ : Bool) (l₁ l₂ : List Char) :
    keyLe (b₁, l₁) (b₂, l₂) = true ↔
      (b₁ = b₂ ∧ lexLe l₁ l₂ = true) ∨ (b₁ = false ∧ b₂ = true) := by
  cases b₁ <;> cases b₂ <;> simp [keyLe]

theorem entryLe_total (a b : Fs) : (entryLe a b || entryLe b a) = true := by
  have h := lexLe_total (lowerKey a.name) (lowerKey b.name)
  rw [Bool.or_eq_true] at h ⊢
  simp only [entryLe, sortKey, keyLe_iff]
  cases ha : a.isDir <;> cases hb : b.isDir <;>
    rcases h with h | h <;> simp [h]

theorem entryLe_trans (a b c : Fs) (h1 : entryLe a b = true) (h2 : entryLe b c = true) :
    entryLe a c = true := by
  simp only [entryLe, sortKey, keyLe_iff] at h1 h2 ⊢
  rcases h1 with ⟨e1, l1⟩ | ⟨e1, e1b⟩ <;> rcases h2 with ⟨e2, l2⟩ | ⟨e2, e2b⟩
  · exact Or.inl ⟨e1.trans e2, lexLe_trans _ _ _ l1 l2⟩
  · exact Or.inr ⟨e1 ▸ e2, e2b⟩
  · exact Or.inr ⟨e1, e2 ▸ e1b⟩
  · rw [e2] at e1b
    cases e1b

theorem insertSorted_perm (x : Fs) (l : List Fs) : List.Perm (insertSorted x l) (x :: l) := by
  induction l with
  | nil => exact List.Perm.refl _
  | cons y ys ih =>
    simp only [insertSorted]
    split
    · exact (ih.cons y).trans (List.Perm.swap x y ys)
    · exact List.Perm.refl _

theorem sortEntries_perm (l : List Fs) : List.Perm (sortEntries l) l := by
  suffices h : ∀ acc : List Fs,
      List.Perm (l.foldl (fun acc x => insertSorted x acc) acc) (acc ++ l) by
    simpa [sortEntries] using h []
  induction l with
  | nil => intro acc; simp
  | cons x xs ih =>
    intro acc
    simp only [List.foldl_cons]
    refine (ih (insertSorted x acc)).trans ?_
    refine ((insertSorted_perm x acc).append_right xs).trans ?_
    exact List.perm_middle.symm

theorem insertSorted_pairwise (x : Fs) (l : List Fs)
    (hl : List.Pairwise (fun a b => entryLe a b = true) l) :
    List.Pairwise (fun a b => entryLe a b = true) (insertSorted x l) := by
  induction l with
  | nil => simp [insertSorted]
  | cons y ys ih =>
    rw [List.pairwise_cons] at hl
    obtain ⟨hy, hys⟩ := hl
    simp only [insertSorted]
    split
    · rename_i hle
      rw [List.pairwise_cons]
      refine ⟨?_, ih hys⟩
      intro z hz
      rcases List.mem_cons.1 ((insertSorted_perm x ys).mem_iff.1 hz) with rfl | hz2
      · exact hle
      · exact hy z hz2
    · rename_i hle
      have hxy : entryLe x y = true := by
        have h := entryLe_total y x
        rw [Bool.or_eq_true] at h
        rcases h with h | h
        · exact absurd h hle
        · exact h
      rw [List.pairwise_cons]
      constructor
      · intro z hz
        rcases List.mem_cons.1 hz with rfl | hz2
        · exact hxy
        · exact entryLe_trans x y z hxy (hy z hz2)
      · exact List.pairwise_cons.2 ⟨hy, hys⟩

theorem sortEntries_pairwise (l : List Fs) :
    List.Pairwise (fun a b => entryLe a b = true) (sortEntries l) := by
  suffices h : ∀ acc : List Fs, List.Pairwise (fun a b => entryLe a b = true) acc →
      List.Pairwise (fun a b => entryLe a b = true)
        (l.foldl (fun acc x => insertSorted x acc) acc) by
    exact h [] (by simp)
  induction l with
  | nil => intro acc hacc; simpa using hacc
  | cons x xs ih =>
    intro acc hacc
    simp only [List.foldl_cons]
    exact ih _ (insertSorted_pairwise x acc hacc)

mutual

theorem emitOne_shape (h₁ h₂ : DirPath → Nat) (b₁ b₂ : DirPath) (p₁ p₂ : String) (e : Fs) :
    (emitOne h₁ b₁ p₁ e).map evShape = (emitOne h₂ b₂ p₂ e).map evShape := by
  cases e with
  | file n => simp [emitOne, evShape]
  | dir n cs =>
    simp only [emitOne, List.map_cons]
    rw [emitList_shape h₁ h₂ (b₁ ++ [n]) (b₂ ++ [n]) (idStr h₁ (b₁ ++ [n]))
      (idStr h₂ (b₂ ++ [n])) (childInsertOrder cs)]
    simp [evShape]
termination_by sizeOf e
decreasing_by
  have := sizeOf_childInsertOrder children
  simp
  omega

theorem emitList_shape (h₁ h₂ : DirPath → Nat) (b₁ b₂ : DirPath) (p₁ p₂ : String)
    (es : List Fs) :
    (emitList h₁ b₁ p₁ es).map evShape = (emitList h₂ b₂ p₂ es).map evShape := by
  cases es with
  | nil => simp [emitList]
  | cons e es2 =>
    simp only [emitList, List.map_append]
    rw [emitOne_shape h₁ h₂ b₁ b₂ p₁ p₂ e, emitList_shape h₁ h₂ b₁ b₂ p₁ p₂ es2]
termination_by sizeOf es
decreasing_by
  all_goals simp
  all_goals omega

end

/-- C6: the children of every directory are inserted in a deterministic
order: the emitted order is sorted by the key `(not is_dir, lowercased
name)` — directories before files, ascending case-insensitive name within
each group — and is a permutation of the visible (non-hidden) entries; and
two scans of the same snapshot produce the same insertion sequence of
entries, even under different process hash seeds. -/
theorem c6_child_order_deterministic (es : List Fs) :
    List.Pairwise (fun a b => entryLe a b = true) (childInsertOrder es) ∧
    List.Perm (childInsertOrder es) (es.filter (fun e => !(isHidden e.name))) ∧
    ∀ h₁ h₂ : DirPath → Nat, (scan h₁ es).map evShape = (scan h₂ es).map evShape := by
  refine ⟨sortEntries_pairwise _, sortEntries_perm _, ?_⟩
  intro h₁ h₂
  exact emitList_shape h₁ h₂ [] [] "" "" (childInsertOrder es)

/-! ### Lemmas for the no-orphan invariant (claim C7) -/

theorem hasId_append (p : String) (l₁ l₂ : List String) :
    hasId p (l₁ ++ l₂) = (hasId p l₁ || hasId p l₂) := by
  induction l₁ with
  | nil => simp [hasId]
  | cons s rest ih => simp [hasId, ih, Bool.or_assoc]

theorem noOrphan_append (seen : List String) (xs ys : List Ev) :
    noOrphan seen (xs ++ ys) =
      (noOrphan seen xs && noOrphan ((xs.map Ev.iid).reverse ++ seen) ys) := by
  induction xs generalizing seen with
  | nil => simp [noOrphan]
  | cons e rest ih =>
    simp only [List.cons_append, noOrphan, List.append_eq]
    rw [ih (e.iid :: seen)]
    simp [List.reverse_cons, List.append_assoc, Bool.and_assoc]

mutual

theorem emitOne_noOrphan (h : DirPath → Nat) (base : DirPath) (pid : String) (e : Fs)
    (seen : List String) (hp : (pid == "" || hasId pid seen) = true) :
    noOrphan seen (emitOne h base pid e) = true := by
  cases e with
  | file n => simp [emitOne, noOrphan, hp]
  | dir n cs =>
    simp only [emitOne, noOrphan, hp, Bool.true_and]
    refine emitList_noOrphan h (base ++ [n]) (idStr h (base ++ [n]))
      (childInsertOrder cs) (idStr h (base ++ [n]) :: seen) ?_
    simp [hasId]
termination_by sizeOf e
decreasing_by
  have := sizeOf_childInsertOrder children
  simp
  omega

theorem emitList_noOrphan (h : DirPath → Nat) (base : DirPath) (pid : String)
    (es : List Fs) (seen : List String) (hp : (pid == "" || hasId pid seen) = true) :
    noOrphan seen (emitList h base pid es) = true := by
  cases es with
  | nil => simp [emitList, noOrphan]
  | cons e es2 =>
    simp only [emitList, noOrphan_append, Bool.and_eq_true]
    refine ⟨emitOne_noOrphan h base pid e seen hp, ?_⟩
    refine emitList_noOrphan h base pid es2
      (((emitOne h base pid e).map Ev.iid).reverse ++ seen) ?_
    rw [Bool.or_eq_true] at hp ⊢
    rcases hp with hp | hp
    · exact Or.inl hp
    · exact Or.inr (by rw [hasId_append, hp, Bool.or_true])
termination_by sizeOf es
decreasing_by
  all_goals simp
  all_goals omega

end

/-- C7: the scanner's emission is in strict pre-order, so a child is never
inserted before its parent: walking the full event stream of a scan and
applying each `add_item` in order to an initially empty Tree Store, every
event's parent id is the root `""` or an id already inserted at that moment.
This holds for every snapshot and every process hash function. -/
theorem c7_no_orphans (h : DirPath → Nat) (l : List Fs) :
    noOrphan [] (scan h l) = true :=
  emitList_noOrphan h [] "" (childInsertOrder l) [] rfl

/-! ### Lemmas for item ids (claim C3) -/

theorem hasId_iff (p : String) (l : List String) : hasId p l = true ↔ p ∈ l := by
  induction l with
  | nil => simp [hasId]
  | cons s rest ih => simp [hasId, ih]

theorem nodupStr_iff (l : List String) : nodupStr l = true ↔ l.Nodup := by
  induction l with
  | nil => simp [nodupStr]
  | cons s rest ih =>
    have hh := hasId_iff s rest
    simp [nodupStr, ih, List.nodup_cons, ← hh]

theorem namesOkF_iff (l : List Fs) : namesOkF l = true ↔ ∀ e ∈ l, namesOkT e = true := by
  induction l with
  | nil => simp [namesOkF]
  | cons t ts ih => simp [namesOkF, ih]

/-- Transfers sibling-name well-formedness through the hidden-name filter and
the sort of `childInsertOrder`. -/
theorem childOrder_names (cs : List Fs) (h1 : nodupStr (cs.map Fs.name) = true)
    (h2 : namesOkF cs = true) :
    (∀ e ∈ childInsertOrder cs, namesOkT e = true) ∧
    ((childInsertOrder cs).map Fs.name).Nodup := by
  have hmem : ∀ e ∈ childInsertOrder cs, e ∈ cs := by
    intro e he
    have h3 := (sortEntries_perm (cs.filter (fun e => !(isHidden e.name)))).mem_iff.1 he
    exact (List.mem_filter.1 h3).1
  constructor
  · intro e he
    exact (namesOkF_iff cs).1 h2 e (hmem e he)
  · have h4 : ((cs.filter (fun e => !(isHidden e.name))).map Fs.name).Nodup := by
      refine List.Nodup.sublist (List.Sublist.map Fs.name (List.filter_sublist cs)) ?_
      exact (nodupStr_iff _).1 h1
    exact ((sortEntries_perm _).map Fs.name).nodup_iff.2 h4

mutual

theorem emitOne_iid (h : DirPath → Nat) (base : DirPath) (pid : String) (e : Fs) :
    ∀ ev ∈ emitOne h base pid e, ev.iid = idStr h ev.path := by
  cases e with
  | file n =>
    intro ev hev
    have hev2 : ev = ⟨base ++ [n], idStr h (base ++ [n]), pid, false, n⟩ := by
      simpa [emitOne] using hev
    subst hev2
    rfl
  | dir n cs =>
    intro ev hev
    simp only [emitOne, List.mem_cons] at hev
    rcases hev with rfl | hev
    · rfl
    · exact emitList_iid h (base ++ [n]) (idStr h (base ++ [n])) (childInsertOrder cs) ev hev
termination_by sizeOf e
decreasing_by
  have := sizeOf_childInsertOrder children
  simp
  omega

theorem emitList_iid (h : DirPath → Nat) (base : DirPath) (pid : String) (es : List Fs) :
    ∀ ev ∈ emitList h base pid es, ev.iid = idStr h ev.path := by
  cases es with
  | nil => intro ev hev; simp [emitList] at hev
  | cons e es2 =>
    intro ev hev
    simp only [emitList, List.mem_append] at hev
    rcases hev with hev | hev
    · exact emitOne_iid h base pid e ev hev
    · exact emitList_iid h base pid es2 ev hev
termination_by sizeOf es
decreasing_by
  all_goals simp
  all_goals omega

end

mutual

theorem emitOne_pid (h : DirPath → Nat) (base : DirPath) (pid : String) (e : Fs)
    (hp : (pid = "" ∧ base = []) ∨ pid = idStr h base) :
    ∀ ev ∈ emitOne h base pid e,
      (ev.pid = "" ∧ ev.path.length = 1) ∨ ev.pid = idStr h ev.path.dropLast := by
  cases e with
  | file n =>
    intro ev hev
    have hev2 : ev = ⟨base ++ [n], idStr h (base ++ [n]), pid, false, n⟩ := by
      simpa [emitOne] using hev
    subst hev2
    rcases hp with ⟨hpid, hbase⟩ | hpid
    · subst hbase
      exact Or.inl ⟨hpid, rfl⟩
    · refine Or.inr ?_
      simpa [List.dropLast_concat] using hpid
  | dir n cs =>
    intro ev hev
    simp only [emitOne, List.mem_cons] at hev
    rcases hev with rfl | hev
    · rcases hp with ⟨hpid, hbase⟩ | hpid
      · subst hbase
        exact Or.inl ⟨hpid, rfl⟩
      · refine Or.inr ?_
        simpa [List.dropLast_concat] using hpid
    · exact emitOne_pid_list h (base ++ [n]) (idStr h (base ++ [n]))
        (childInsertOrder cs) (Or.inr rfl) ev hev
termination_by sizeOf e
decreasing_by
  have := sizeOf_childInsertOrder children
  simp
  omega

theorem emitOne_pid_list (h : DirPath → Nat) (base : DirPath) (pid : String)
    (es : List Fs) (hp : (pid = "" ∧ base = []) ∨ pid = idStr h base) :
    ∀ ev ∈ emitList h base pid es,
      (ev.pid = "" ∧ ev.path.length = 1) ∨ ev.pid = idStr h ev.path.dropLast := by
  cases es with
  | nil => intro ev hev; simp [emitList] at hev
  | cons e es2 =>
    intro ev hev
    simp only [emitList, List.mem_append] at hev
    rcases hev with hev | hev
    · exact emitOne_pid h base pid e hp ev hev
    · exact emitOne_pid_list h base pid es2 hp ev hev
termination_by sizeOf es
decreasing_by
  all_goals simp
  all_goals omega

end

mutual

theorem emitOne_path_prefix (h : DirPath → Nat) (base : DirPath) (pid : String) (e : Fs) :
    ∀ ev ∈ emitOne h base pid e, (base ++ [e.name]) <+: ev.path := by
  cases e with
  | file n =>
    intro ev hev
    have hev2 : ev = ⟨base ++ [n], idStr h (base ++ [n]), pid, false, n⟩ := by
      simpa [emitOne] using hev
    subst hev2
    exact List.prefix_refl _
  | dir n cs =>
    intro ev hev
    simp only [emitOne, List.mem_cons] at hev
    rcases hev with rfl | hev
    · exact List.prefix_refl _
    · obtain ⟨e2, _, hpre⟩ := emitList_path_prefix h (base ++ [n])
        (idStr h (base ++ [n])) (childInsertOrder cs) ev hev
      exact List.IsPrefix.trans (List.prefix_append _ _) hpre
termination_by sizeOf e
decreasing_by
  have := sizeOf_childInsertOrder children
  simp
  omega

theorem emitList_path_prefix (h : DirPath → Nat) (base : DirPath) (pid : String)
    (es : List Fs) :
    ∀ ev ∈ emitList h base pid es, ∃ e ∈ es, (base ++ [e.name]) <+: ev.path := by
  cases es with
  | nil => intro ev hev; simp [emitList] at hev
  | cons e es2 =>
    intro ev hev
    simp only [emitList, List.mem_append] at hev
    rcases hev with hev | hev
    · exact ⟨e, List.mem_cons_self e es2, emitOne_path_prefix h base pid e ev hev⟩
    · obtain ⟨e2, he2, hpre⟩ := emitList_path_prefix h base pid es2 ev hev
      exact ⟨e2, List.mem_cons_of_mem e he2, hpre⟩
termination_by sizeOf es
decreasing_by
  all_goals simp
  all_goals omega

end

theorem path_prefix_ne (base : DirPath) (a b : String) (p q : DirPath)
    (ha : (base ++ [a]) <+: p) (hb : (base ++ [b]) <+: q) (hab : a ≠ b) : p ≠ q := by
  intro he
  subst he
  have h1 : base ++ [a] = p.take (base ++ [a]).length := List.prefix_iff_eq_take.1 ha
  have h2 : base ++ [b] = p.take (base ++ [b]).length := List.prefix_iff_eq_take.1 hb
  have h3 : (base ++ [a]).length = (base ++ [b]).length := by simp
  rw [h3] at h1
  have h4 : base ++ [a] = base ++ [b] := h1.trans h2.symm
  exact hab (by simpa using List.append_cancel_left h4)

mutual

theorem emitOne_paths_nodup (h : DirPath → Nat) (base : DirPath) (pid : String) (e : Fs)
    (hok : namesOkT e = true) : ((emitOne h base pid e).map Ev.path).Nodup := by
  cases e with
  | file n => simp [emitOne]
  | dir n cs =>
    simp only [namesOkT, Bool.and_eq_true] at hok
    have hco := childOrder_names cs hok.1 hok.2
    simp only [emitOne, List.map_cons]
    rw [List.nodup_cons]
    constructor
    · intro hmem
      obtain ⟨ev, hev, hpath⟩ := List.mem_map.1 hmem
      obtain ⟨e2, _, hpre⟩ := emitList_path_prefix h (base ++ [n]) (idStr h (base ++ [n]))
        (childInsertOrder cs) ev hev
      have hlen := hpre.length_le
      rw [hpath] at hlen
      simp at hlen
    · exact emitList_paths_nodup h (base ++ [n]) (idStr h (base ++ [n]))
        (childInsertOrder cs) hco.1 hco.2
termination_by sizeOf e
decreasing_by
  rename_i heq
  subst heq
  exact sizeOf_childInsertOrder_lt _ _

theorem emitList_paths_nodup (h : DirPath → Nat) (base : DirPath) (pid : String)
    (es : List Fs) (hall : ∀ e ∈ es, namesOkT e = true)
    (hnames : (es.map Fs.name).Nodup) : ((emitList h base pid es).map Ev.path).Nodup := by
  cases es with
  | nil => simp [emitList]
  | cons e es2 =>
    simp only [emitList, List.map_append]
    simp only [List.map_cons, List.nodup_cons] at hnames
    refine List.Nodup.append ?_ ?_ ?_
    · exact emitOne_paths_nodup h base pid e (hall e (List.mem_cons_self e es2))
    · exact emitList_paths_nodup h base pid es2
        (fun x hx => hall x (List.mem_cons_of_mem e hx)) hnames.2
    · intro p hp1 hp2
      obtain ⟨ev1, hev1, hpath1⟩ := List.mem_map.1 hp1
      obtain ⟨ev2, hev2, hpath2⟩ := List.mem_map.1 hp2
      have hpre1 := emitOne_path_prefix h base pid e ev1 hev1
      obtain ⟨e2, he2, hpre2⟩ := emitList_path_prefix h base pid es2 ev2 hev2
      have hne : e.name ≠ e2.name := by
        intro hcontra
        exact hnames.1 (hcontra ▸ List.mem_map_of_mem Fs.name he2)
      exact path_prefix_ne base e.name e2.name p p (hpath1 ▸ hpre1) (hpath2 ▸ hpre2) hne rfl
termination_by sizeOf es
decreasing_by
  all_goals (rename_i heq; subst heq; simp; (try omega))

end

theorem scan_paths_nodup (h : DirPath → Nat) (l : List Fs) (hok : snapshotOk l = true) :
    ((scan h l).map Ev.path).Nodup := by
  simp only [snapshotOk, Bool.and_eq_true] at hok
  have hco := childOrder_names l hok.1 hok.2
  exact emitList_paths_nodup h [] "" (childInsertOrder l) hco.1 hco.2

/-! ### Claim C3 -/

/-- C3, counterexample.  Ids are `str(hash(path))`, and Python's string hash
is a per-process seeded 64-bit hash with no collision handling anywhere in
the code, so "pairwise distinct" is not guaranteed: quantifying the claim
over the possible process hash functions, a colliding hash (here the
constant hash) assigns two distinct sibling files the same id. -/
theorem c3_counterexample :
    ¬ ((scan (fun _ => 0) [Fs.file "a", Fs.file "b"]).map Ev.iid).Nodup := by
  have hco : childInsertOrder [Fs.file "a", Fs.file "b"] = [Fs.file "a", Fs.file "b"] := rfl
  simp [scan, hco, emitList, emitOne, idStr]

/-- C3 (amended): within one scan each entry's id is stable — the emitted id
is exactly `str(h(path))`, a function of the entry alone, and the parent id
every child event carries is that same value for the parent's path (root
entries carry `""`); and the ids are pairwise distinct provided sibling
names are distinct (true on a real filesystem) and the process hash `h` is
injective on the scanned paths, which the code assumes but does not
enforce. -/
theorem c3_amended_ids (h : DirPath → Nat) (l : List Fs) (hok : snapshotOk l = true)
    (hinj : ∀ p ∈ (scan h l).map Ev.path, ∀ q ∈ (scan h l).map Ev.path,
      idStr h p = idStr h q → p = q) :
    ((scan h l).map Ev.iid).Nodup ∧
    (∀ ev ∈ scan h l, ev.iid = idStr h ev.path) ∧
    (∀ ev ∈ scan h l, (ev.pid = "" ∧ ev.path.length = 1) ∨
      ev.pid = idStr h ev.path.dropLast) := by
  have hstable : ∀ ev ∈ scan h l, ev.iid = idStr h ev.path :=
    emitList_iid h [] "" (childInsertOrder l)
  refine ⟨?_, hstable, emitOne_pid_list h [] "" (childInsertOrder l) (Or.inl ⟨rfl, rfl⟩)⟩
  have hmap : (scan h l).map Ev.iid = ((scan h l).map Ev.path).map (idStr h) := by
    rw [List.map_map]
    exact List.map_congr_left hstable
  rw [hmap]
  exact List.Nodup.map_on hinj (scan_paths_nodup h l hok)

/-- Witness for `c3_amended_ids`: a snapshot with one file and one directory
under a hash that is injective on the two scanned paths. -/
theorem c3_amended_witness :
    snapshotOk [Fs.file "a", Fs.dir "b" []] = true ∧
    (∀ p ∈ (scan (fun p => if p = ["a"] then 0 else 1)
        [Fs.file "a", Fs.dir "b" []]).map Ev.path,
      ∀ q ∈ (scan (fun p => if p = ["a"] then 0 else 1)
        [Fs.file "a", Fs.dir "b" []]).map Ev.path,
      idStr (fun p => if p = ["a"] then 0 else 1) p =
        idStr (fun p => if p = ["a"] then 0 else 1) q → p = q) ∧
    (((scan (fun p => if p = ["a"] then 0 else 1)
        [Fs.file "a", Fs.dir "b" []]).map Ev.iid).Nodup ∧
      (∀ ev ∈ scan (fun p => if p = ["a"] then 0 else 1) [Fs.file "a", Fs.dir "b" []],
        ev.iid = idStr (fun p => if p = ["a"] then 0 else 1) ev.path) ∧
      (∀ ev ∈ scan (fun p => if p = ["a"] then 0 else 1) [Fs.file "a", Fs.dir "b" []],
        (ev.pid = "" ∧ ev.path.length = 1) ∨
          ev.pid = idStr (fun p => if p = ["a"] then 0 else 1) ev.path.dropLast)) := by
  have hco : childInsertOrder [Fs.file "a", Fs.dir "b" []] =
      [Fs.dir "b" [], Fs.file "a"] := rfl
  have hscan : scan (fun p => if p = ["a"] then 0 else 1) [Fs.file "a", Fs.dir "b" []] =
      [⟨["b"], idStr (fun p => if p = ["a"] then 0 else 1) ["b"], "", true, "b"⟩,
        ⟨["a"], idStr (fun p => if p = ["a"] then 0 else 1) ["a"], "", false, "a"⟩] := by
    have hco2 : childInsertOrder ([] : List Fs) = [] := rfl
    simp only [scan]
    rw [hco]
    simp only [emitList, emitOne]
    rw [hco2]
    simp [emitList]
  have hinj : ∀ p ∈ (scan (fun p => if p = ["a"] then 0 else 1)
      [Fs.file "a", Fs.dir "b" []]).map Ev.path,
      ∀ q ∈ (scan (fun p => if p = ["a"] then 0 else 1)
        [Fs.file "a", Fs.dir "b" []]).map Ev.path,
      idStr (fun p => if p = ["a"] then 0 else 1) p =
        idStr (fun p => if p = ["a"] then 0 else 1) q → p = q := by
    intro p hp q hq
    rw [hscan] at hp hq
    simp only [List.map_cons, List.map_nil, List.mem_cons, List.not_mem_nil,
      or_false, List.mem_singleton] at hp hq
    rcases hp with rfl | rfl <;> rcases hq with rfl | rfl
    · intro _; rfl
    · intro hid; exact absurd hid (by decide)
    · intro hid; exact absurd hid (by decide)
    · intro _; rfl
  exact ⟨rfl, hinj, c3_amended_ids (fun p => if p = ["a"] then 0 else 1)
    [Fs.file "a", Fs.dir "b" []] rfl hinj⟩

/-! ### Part 3: threads, cancellation and the dispatcher -/

/-- The queue messages relevant to scanning (lines 695-718, 765, 815):
`('add_item', …)` — tagged with a ghost scan identifier recording which scan
produced it — and the terminal `('loading_cancelled')` / `('loading_complete')`
messages.  Progress and warning messages only change label text and are
omitted. -/
inductive Msg where
  | addItem (scanId : Nat) (iid pid : String)
  | cancelled (scanId : Nat)
  | completed (scanId : Nat)
deriving DecidableEq, Repr

/-- One live `add_items` recursion frame of the worker: the `parent_id`
argument, the directory's path, and the entries not yet emitted (already
filtered and sorted, as the source does before its emission loop). -/
structure Frame where
  pid : String
  base : DirPath
  rem : List Fs
deriving Repr

/-- Worker control position: running `add_items` (`building`), at the final
`if not self.stop_loading_flag` check of `_load_tree_thread` (line 713)
(`finalCheck`), or exited (`done`). -/
inductive Phase where
  | building
  | finalCheck
  | done
deriving DecidableEq, Repr

/-- One `_load_tree_thread` worker: the scan it belongs to (ghost), its
`add_items` recursion stack, and `mid = true` when it has read the stop flag
as false for the current entry but has not yet executed the `queue.put` —
the two operations are separate statements (lines 742, 765) and the main
thread can interleave between them. -/
structure Worker where
  scanId : Nat
  stack : List Frame
  mid : Bool
  phase : Phase
deriving Repr

/-- The shared state: `stop_loading_flag` and `is_loading` (lines 176-178),
the message queue, the Tree Store (as ghost-tagged inserted ids, in order),
the identifier of the most recently started scan, the workers spawned so
far, and the ghost log of messages `process_queue` has applied, in order. -/
structure Sys where
  flag : Bool
  isLoading : Bool
  queue : List Msg
  store : List (Nat × String)
  curScan : Nat
  workers : List Worker
  log : List Msg
deriving Repr

/-- One scheduling step of a worker thread (lines 724-784 and 713-714): pop
an exhausted frame (the loop over `items` ended, no check there); otherwise
read the flag — `if self.stop_loading_flag: return` exits one `add_items`
level, else the emission of the current entry becomes pending (`mid`);
a pending emission is then put on the queue unconditionally, pushing a new
frame when the entry is a directory (recursion of line 784).  With an empty
stack the worker runs the final flag check and puts `loading_complete` only
if the flag is still false (line 713). -/
def wstep (h : DirPath → Nat) (flag : Bool) (w : Worker) : Worker × List Msg :=
  match w.phase with
  | .done => (w, [])
  | .finalCheck =>
    if flag then ({ w with phase := .done }, [])
    else ({ w with phase := .done }, [.completed w.scanId])
  | .building =>
    match w.stack with
    | [] => ({ w with phase := .finalCheck }, [])
    | fr :: rest =>
      match fr.rem with
      | [] => ({ w with stack := rest }, [])
      | e :: es =>
        if !w.mid then
          if flag then ({ w with stack := rest }, [])
          else ({ w with mid := true }, [])
        else
          ({ w with
              stack :=
                match e with
                | .file _ => { fr with rem := es } :: rest
                | .dir _ cs =>
                  ⟨idStr h (fr.base ++ [e.name]), fr.base ++ [e.name],
                    childInsertOrder cs⟩ :: { fr with rem := es } :: rest,
              mid := false },
            [Msg.addItem w.scanId (idStr h (fr.base ++ [e.name])) fr.pid])

/-- Schedule worker `i` for one step (no-op if no such worker). -/
def workerAct (h : DirPath → Nat) (i : Nat) (s : Sys) : Sys :=
  match s.workers[i]? with
  | none => s
  | some w =>
    let r := wstep h s.flag w
    { s with workers := s.workers.set i r.1, queue := s.queue ++ r.2 }

/-- `cancel_loading` (lines 810-818): if a load is in progress, set the
shared stop flag, clear `is_loading`, and put `('loading_cancelled', None)`
on the queue.  It does not join or wait for the worker thread. -/
def cancelStep (s : Sys) : Sys :=
  if s.isLoading then
    { s with
        flag := true
        isLoading := false
        queue := s.queue ++ [.cancelled s.curScan] }
  else s

def newWorker (sid : Nat) (root : List Fs) : Worker :=
  ⟨sid, [⟨"", [], childInsertOrder root⟩], false, .building⟩

/-- `select_folder` (lines 618-634) followed by `load_tree_async`
(lines 659-684): first `cancel_loading()`, then — without waiting for the
old thread — clear the tree, set `is_loading = True`, reset
`stop_loading_flag = False` (the flag is shared with the still-running old
worker), and start a new worker thread. -/
def newScanStep (root : List Fs) (s : Sys) : Sys :=
  let s1 := cancelStep s
  { s1 with
      store := []
      isLoading := true
      flag := false
      curScan := s1.curScan + 1
      workers := s1.workers ++ [newWorker (s1.curScan + 1) root] }

/-- One message application of `process_queue` (lines 830-902): `add_item`
inserts into the store unconditionally — there is no scan-identity or
`is_loading` guard in the handler — and the terminal messages clear
`is_loading`. -/
def applyMsg (s : Sys) (m : Msg) : Sys :=
  match m with
  | .addItem sc iid _ => { s with store := s.store ++ [(sc, iid)], log := s.log ++ [m] }
  | .cancelled _ => { s with isLoading := false, log := s.log ++ [m] }
  | .completed _ => { s with isLoading := false, log := s.log ++ [m] }

/-- One `process_queue` tick: drain every pending message in arrival order. -/
def tick (s : Sys) : Sys :=
  s.queue.foldl applyMsg { s with queue := [] }

/-- A scheduling action: one worker step, the user pressing Cancel Loading,
the user selecting a (new) folder, or a dispatcher tick. -/
inductive Act where
  | work (i : Nat)
  | cancel
  | newScan (root : List Fs)
  | tick

def step (h : DirPath → Nat) (s : Sys) : Act → Sys
  | .work i => workerAct h i s
  | .cancel => cancelStep s
  | .newScan root => newScanStep root s
  | .tick => tick s

/-- Run a schedule (one interleaving of the threads). -/
def run (h : DirPath → Nat) (acts : List Act) (s : Sys) : Sys :=
  acts.foldl (step h) s

def sysInit : Sys := ⟨false, false, [], [], 0, [], []⟩

/-- Every node in the store was discovered by the current scan. -/
def staleFree (s : Sys) : Bool := s.store.all (fun q => q.1 == s.curScan)

/-- Some `add_item` of scan `sc` was applied after the `cancelled` message of
the same scan `sc` in the dispatcher's application order. -/
def hasAddAfterCancel : List Msg → Bool
  | [] => false
  | .cancelled sc :: rest =>
    rest.any (fun m =>
      match m with
      | .addItem sc2 _ _ => sc2 == sc
      | _ => false) || hasAddAfterCancel rest
  | _ :: rest => hasAddAfterCancel rest

/-! ### Claims C2 and C5 -/

/-- C2, counterexample.  Schedule: scan 1 of a two-file folder starts and one
entry is applied; the user selects a new folder — `select_folder` runs
`cancel_loading` and immediately starts scan 2, resetting the shared stop
flag; the still-running scan-1 worker then reads the flag (false again!),
emits its second entry, and the dispatcher inserts it: the final store holds
a node discovered by the cancelled scan 1 while the current scan is 2.  The
in-flight scan's terminal event was never awaited before the clear. -/
theorem c2_counterexample :
    staleFree (run (fun _ => 0)
      [Act.newScan [Fs.file "a", Fs.file "b"], Act.work 0, Act.work 0, Act.tick,
        Act.newScan [Fs.file "c"], Act.work 0, Act.work 0, Act.tick] sysInit) = false ∧
    (run (fun _ => 0)
      [Act.newScan [Fs.file "a", Fs.file "b"], Act.work 0, Act.work 0, Act.tick,
        Act.newScan [Fs.file "c"], Act.work 0, Act.work 0, Act.tick] sysInit).store.any
      (fun q => q.1 == 1) = true ∧
    (run (fun _ => 0)
      [Act.newScan [Fs.file "a", Fs.file "b"], Act.work 0, Act.work 0, Act.tick,
        Act.newScan [Fs.file "c"], Act.work 0, Act.work 0, Act.tick] sysInit).curScan
      = 2 := by
  refine ⟨?_, ?_, ?_⟩ <;> decide

/-- C2 (amended): requesting a new scan requests cancellation (shared flag
plus a `loading_cancelled` message) but does not wait for the in-flight
scanner's terminal event: immediately after the `newScan` step every
previously running worker is still present in exactly its old state (it has
emitted no terminal event), the Tree Store has been cleared, and the shared
stop flag has been reset to false — which un-cancels a worker that has not
yet observed it (see the counterexample for a resulting stale insertion). -/
theorem c2_amended_no_wait (h : DirPath → Nat) (root : List Fs) (s : Sys) (w : Worker)
    (hw : w ∈ s.workers) :
    w ∈ (step h s (Act.newScan root)).workers ∧
    (step h s (Act.newScan root)).flag = false ∧
    (step h s (Act.newScan root)).store = [] ∧
    (step h s (Act.newScan root)).curScan = s.curScan + 1 := by
  have hcw : (cancelStep s).workers = s.workers := by
    rw [cancelStep]
    split <;> rfl
  have hcc : (cancelStep s).curScan = s.curScan := by
    rw [cancelStep]
    split <;> rfl
  refine ⟨?_, rfl, rfl, ?_⟩
  · show w ∈ (cancelStep s).workers ++ [newWorker ((cancelStep s).curScan + 1) root]
    rw [hcw]
    exact List.mem_append_left _ hw
  · show (cancelStep s).curScan + 1 = s.curScan + 1
    rw [hcc]

/-- Witness for `c2_amended_no_wait` at a concrete loading state with one
live worker. -/
theorem c2_amended_witness :
    (⟨1, [⟨"", [], [Fs.file "a"]⟩], false, Phase.building⟩ : Worker) ∈
      (⟨false, true, [], [], 1,
        [⟨1, [⟨"", [], [Fs.file "a"]⟩], false, Phase.building⟩], []⟩ : Sys).workers ∧
    ((⟨1, [⟨"", [], [Fs.file "a"]⟩], false, Phase.building⟩ : Worker) ∈
      (step (fun _ => 0) ⟨false, true, [], [], 1,
        [⟨1, [⟨"", [], [Fs.file "a"]⟩], false, Phase.building⟩], []⟩
          (Act.newScan [])).workers ∧
    (step (fun _ => 0) ⟨false, true, [], [], 1,
        [⟨1, [⟨"", [], [Fs.file "a"]⟩], false, Phase.building⟩], []⟩
          (Act.newScan [])).flag = false ∧
    (step (fun _ => 0) ⟨false, true, [], [], 1,
        [⟨1, [⟨"", [], [Fs.file "a"]⟩], false, Phase.building⟩], []⟩
          (Act.newScan [])).store = [] ∧
    (step (fun _ => 0) ⟨false, true, [], [], 1,
        [⟨1, [⟨"", [], [Fs.file "a"]⟩], false, Phase.building⟩], []⟩
          (Act.newScan [])).curScan =
      (⟨false, true, [], [], 1,
        [⟨1, [⟨"", [], [Fs.file "a"]⟩], false, Phase.building⟩], []⟩ : Sys).curScan + 1) :=
  ⟨List.mem_singleton_self _,
    c2_amended_no_wait (fun _ => 0) [] _ _ (List.mem_singleton_self _)⟩

/-- C5, counterexample.  The worker reads the stop flag as false for an
entry; before its `queue.put` runs, the main thread's `cancel_loading` sets
the flag and enqueues `loading_cancelled`; the worker's pending `queue.put`
then lands after it.  The dispatcher applies the scan's `cancelled` message
first and the same scan's `add_item` after it — a NodeDiscovered event is
applied after the Cancelled event. -/
theorem c5_counterexample :
    hasAddAfterCancel (run (fun _ => 0)
      [Act.newScan [Fs.file "a"], Act.work 0, Act.cancel, Act.work 0, Act.tick]
      sysInit).log = true := by
  decide

theorem wstep_silent (h : DirPath → Nat) (w : Worker) (hm : w.mid = false) :
    (wstep h true w).2 = [] ∧ (wstep h true w).1.mid = false := by
  cases w with
  | mk sid stack mid phase =>
    simp only at hm
    subst hm
    cases phase with
    | done => exact ⟨rfl, rfl⟩
    | finalCheck => exact ⟨rfl, rfl⟩
    | building =>
      cases stack with
      | nil => exact ⟨rfl, rfl⟩
      | cons fr rest =>
        cases fr with
        | mk pid base rem =>
          cases rem with
          | nil => exact ⟨rfl, rfl⟩
          | cons e es => exact ⟨rfl, rfl⟩

/-- C5 (amended): the build-phase scanner reads the stop flag once per entry
before emitting it — so as long as the flag stays set and the scanner has no
emission pending from a flag read that happened before cancellation, it
emits nothing at all (no further `add_item`, and no `loading_complete` from
the final check): any sequence of worker steps leaves the queue untouched.
The `loading_cancelled` message itself is enqueued by `cancel_loading` on
the main thread, and an emission whose flag check preceded the cancellation
can still be applied after it (see the counterexample). -/
theorem c5_amended_silent_after_flag (h : DirPath → Nat) (l : List Nat) (s : Sys)
    (hflag : s.flag = true) (hmid : ∀ w ∈ s.workers, w.mid = false) :
    (run h (l.map Act.work) s).queue = s.queue := by
  induction l generalizing s with
  | nil => rfl
  | cons i rest ih =>
    have key : (workerAct h i s).queue = s.queue ∧ (workerAct h i s).flag = true ∧
        ∀ w ∈ (workerAct h i s).workers, w.mid = false := by
      rw [workerAct]
      rcases hwi : s.workers[i]? with _ | w
      · exact ⟨rfl, hflag, hmid⟩
      · have hwmem : w ∈ s.workers := by
          have := List.getElem?_eq_some_iff.1 hwi
          obtain ⟨hlt, hget⟩ := this
          exact hget ▸ List.getElem_mem hlt
        have hsil := wstep_silent h w (hmid w hwmem)
        rw [hflag]
        refine ⟨?_, rfl, ?_⟩
        · show s.queue ++ (wstep h true w).2 = s.queue
          rw [hsil.1, List.append_nil]
        · show ∀ w2 ∈ s.workers.set i (wstep h true w).1, w2.mid = false
          intro w2 hw2
          rcases List.mem_or_eq_of_mem_set hw2 with hw2 | hw2
          · exact hmid w2 hw2
          · rw [hw2]
            exact hsil.2
    calc (run h ((i :: rest).map Act.work) s).queue
        = (run h (rest.map Act.work) (workerAct h i s)).queue := rfl
      _ = (workerAct h i s).queue := ih (workerAct h i s) key.2.1 key.2.2
      _ = s.queue := key.1

/-- Witness for `c5_amended_silent_after_flag`: three worker steps under a
set flag emit nothing. -/
theorem c5_amended_witness :
    (⟨true, false, [], [], 1,
      [⟨1, [⟨"", [], [Fs.file "a", Fs.dir "d" []]⟩], false, Phase.building⟩],
      []⟩ : Sys).flag = true ∧
    (∀ w ∈ (⟨true, false, [], [], 1,
      [⟨1, [⟨"", [], [Fs.file "a", Fs.dir "d" []]⟩], false, Phase.building⟩],
      []⟩ : Sys).workers, w.mid = false) ∧
    (run (fun _ => 0) ([0, 0, 0].map Act.work)
      (⟨true, false, [], [], 1,
        [⟨1, [⟨"", [], [Fs.file "a", Fs.dir "d" []]⟩], false, Phase.building⟩],
        []⟩ : Sys)).queue =
      (⟨true, false, [], [], 1,
        [⟨1, [⟨"", [], [Fs.file "a", Fs.dir "d" []]⟩], false, Phase.building⟩],
        []⟩ : Sys).queue := by
  have hmid : ∀ w ∈ (⟨true, false, [], [], 1,
      [⟨1, [⟨"", [], [Fs.file "a", Fs.dir "d" []]⟩], false, Phase.building⟩],
      []⟩ : Sys).workers, w.mid = false := by
    intro w hw
    rw [List.mem_singleton.1 hw]
  exact ⟨rfl, hmid, c5_amended_silent_after_flag (fun _ => 0) [0, 0, 0] _ rfl hmid⟩
